import Mathlib

/-!
Shallow embedding of `Algo-trading-strategies/Strategies/buy_and_hold.py`
(class `BuyAndHold`): a leveraged buy-and-hold position simulator over a
price series, with three-regime re-hedging and post-processing accessors.

Machine floats of the source are modelled by rationals (`ℚ`); the pandas
DataFrame is modelled as a list of rows carrying the three columns the
class reads (`Adj Close`, `Return/Unit`, `Daily Rate`).
-/

namespace BuyAndHold

/-- One row of the input DataFrame: the three columns the class reads. -/
structure Row where
  adjClose : ℚ
  returnPerUnit : ℚ
  dailyRate : ℚ
deriving DecidableEq, Repr

instance : Inhabited Row := ⟨⟨0, 0, 0⟩⟩

/-- The four parallel output sequences held by the object
(`self.theta`, `self.cap_V`, `self.PnL`, `self.stock_hold`). -/
structure BHState where
  theta : List ℚ
  cap_V : List ℚ
  PnL : List ℚ
  stock_hold : List ℚ
deriving DecidableEq, Repr

/-- `generate_signals` sets the `Signal` column to the constant `1`
for every period (line 30). -/
def signalAt (_i : ℕ) : ℚ := 1

/-- Guard of the first branch, line 40: `abs(theta_t) > self.theta_0`. -/
def overExposed (theta_0 theta_t : ℚ) : Prop := |theta_t| > theta_0

instance (a b : ℚ) : Decidable (overExposed a b) :=
  inferInstanceAs (Decidable (|b| > a))

/-- Guard of the second branch, line 46:
`abs(theta_t) <= self.theta_0 and abs(theta_t) > self.theta_0 - self.V_0`. -/
def bufferBand (theta_0 V_0 theta_t : ℚ) : Prop :=
  |theta_t| ≤ theta_0 ∧ |theta_t| > theta_0 - V_0

instance (a v b : ℚ) : Decidable (bufferBand a v b) :=
  inferInstanceAs (Decidable (|b| ≤ a ∧ |b| > a - v))

/-- The condition of the `else` branch as stated by the source comment on
line 50 (`# if |theta| <= theta_0 - V_0`) and by the spec (regime 3). -/
def wipeoutCond (theta_0 V_0 theta_t : ℚ) : Prop := |theta_t| ≤ theta_0 - V_0

instance (a v b : ℚ) : Decidable (wipeoutCond a v b) :=
  inferInstanceAs (Decidable (|b| ≤ a - v))

/-- Constructor `__init__` (lines 6-23): stores `theta_0 = V_0 * L` and seeds
the four sequences `theta = [theta_0]`, `cap_V = [0]`, `PnL = [0]`,
`stock_hold = [theta_0 / price[0]]`.  The source performs no validation of
`V_0`, `L` or the seed price. -/
def init (df : List Row) (V_0 L : ℚ) : BHState :=
  { theta := [V_0 * L]
    cap_V := [0]
    PnL := [0]
    stock_hold := [V_0 * L / (df.headD default).adjClose] }

/-- The four appends of lines 57-60, executed together at the end of a
non-wipeout loop iteration. -/
def BHState.app (s : BHState) (c t h p : ℚ) : BHState :=
  { theta := s.theta ++ [t]
    cap_V := s.cap_V ++ [c]
    PnL := s.PnL ++ [p]
    stock_hold := s.stock_hold ++ [h] }

/-- The loop of `execute_strategy` (lines 37-60), processing the remaining
rows, `i` being the DataFrame index of the head row.  The second component
instruments the run with the index at which the `else` (wipeout) branch
fired and broke out of the loop, `none` when the loop ran to completion.
In the wipeout branch the source computes `cap_V_t = |theta_t| - theta_0`,
`theta_t = 0`, `hold_t = 0`, `PnL_t = 0` (lines 52-55) and then `break`s
(line 56) before the appends of lines 57-60, so those values are discarded
and the state is returned unchanged. -/
def execFromI (theta_0 V_0 : ℚ) : ℕ → List Row → BHState → BHState × Option ℕ
  | _, [], s => (s, none)
  | i, row :: rest, s =>
    let theta_t := s.stock_hold.getD (i - 1) 0 * row.adjClose
    if overExposed theta_0 theta_t then
      execFromI theta_0 V_0 (i + 1) rest
        (s.app (|theta_t| - theta_0) (theta_0 * signalAt i)
          (theta_0 * signalAt i / row.adjClose) (row.returnPerUnit * theta_t))
    else if bufferBand theta_0 V_0 theta_t then
      execFromI theta_0 V_0 (i + 1) rest
        (s.app 0 theta_t (s.stock_hold.getLastD 0) (row.returnPerUnit * theta_t))
    else
      (s, some i)

/-- `execute_strategy` (lines 33-60): iterate the loop body over
`i = 1 .. len(df) - 1`, starting from the constructed state. -/
def execute_strategy (df : List Row) (V_0 L : ℚ) : BHState × Option ℕ :=
  execFromI (V_0 * L) V_0 1 (df.drop 1) (init df V_0 L)

/-- `run` (lines 62-67) restricted to its observable effect on the four
sequences (`generate_signals` only fills the constant signal column),
together with the wipeout instrumentation. -/
def runI (df : List Row) (V_0 L : ℚ) : BHState × Option ℕ :=
  execute_strategy df V_0 L

/-- The four sequences after `run`. -/
def run (df : List Row) (V_0 L : ℚ) : BHState :=
  (runI df V_0 L).1

/-- The state of the object after the first `m` iterations of the
`execute_strategy` loop: an intermediate point of the run. -/
def runUpTo (df : List Row) (V_0 L : ℚ) (m : ℕ) : BHState × Option ℕ :=
  execFromI (V_0 * L) V_0 1 ((df.drop 1).take m) (init df V_0 L)

/-- `self.xs.extend([0] * (len(self.df) - len(self.xs)))`: the in-place
mutation performed by each padding accessor (Python `[0] * k` is empty for
negative `k`, as is `List.replicate` under truncated subtraction). -/
def extendTo (n : ℕ) (xs : List ℚ) : List ℚ :=
  xs ++ List.replicate (n - xs.length) 0

/-- `self.xs[:len(self.df)]`: the padded column attached to the DataFrame
and returned by each accessor. -/
def padTo (n : ℕ) (xs : List ℚ) : List ℚ :=
  (extendTo n xs).take n

/-- `get_theta` (lines 75-81): extends `self.theta` in place with zeros up
to the DataFrame length and returns the truncated column.  Modelled with
explicit state passing: first component is the mutated object state,
second the returned series. -/
def get_theta (df : List Row) (s : BHState) : BHState × List ℚ :=
  ({ s with theta := extendTo df.length s.theta }, padTo df.length s.theta)

/-- `get_stock_hold` (lines 83-89). -/
def get_stock_hold (df : List Row) (s : BHState) : BHState × List ℚ :=
  ({ s with stock_hold := extendTo df.length s.stock_hold },
    padTo df.length s.stock_hold)

/-- `get_cap_V` (lines 91-97). -/
def get_cap_V (df : List Row) (s : BHState) : BHState × List ℚ :=
  ({ s with cap_V := extendTo df.length s.cap_V }, padTo df.length s.cap_V)

/-- `get_PnL` (lines 99-106). -/
def get_PnL (df : List Row) (s : BHState) : BHState × List ℚ :=
  ({ s with PnL := extendTo df.length s.PnL }, padTo df.length s.PnL)

/-- The loop of `get_cumulative_cap_V` (lines 161-163): starting from the
previous balance `prev`, append
`(prev + cap_V[i]) * (1 + df['Daily Rate'][i] / 100)` for `steps` further
indices beginning at `i`. -/
def cumCapFrom (df : List Row) (capV : List ℚ) : ℚ → ℕ → ℕ → List ℚ
  | _, _, 0 => []
  | prev, i, steps + 1 =>
    let v := (prev + capV.getD i 0) * (1 + (df.getD i default).dailyRate / 100)
    v :: cumCapFrom df capV v (i + 1) steps

/-- `get_cumulative_cap_V` (lines 157-165): `cap_V_total = [0]`, then the
loop over `i = 1 .. len(get_cap_V()) - 1`.  The `self.get_cap_V()` calls
inside the loop all return the padded capital sequence (padding is
idempotent after the first call). -/
def get_cumulative_cap_V (df : List Row) (s : BHState) : List ℚ :=
  let capV := (get_cap_V df s).2
  0 :: cumCapFrom df capV 0 1 (capV.length - 1)

/-- Absolute first differences `|xs[i] - xs[i-1]|` for `i = 1 ..`, the
defined entries of `abs(series - series.shift(1))` (the slot at index `0`
is NaN in pandas and contributes nothing to the skipna cumulative sum;
it is modelled as an empty contribution). -/
def absDiffs : List ℚ → List ℚ
  | [] => []
  | [_] => []
  | a :: b :: rest => |b - a| :: absDiffs (b :: rest)

/-- Running sums starting from accumulator `acc` (`Series.cumsum`). -/
def cumsumFrom (acc : ℚ) : List ℚ → List ℚ
  | [] => []
  | x :: rest => (acc + x) :: cumsumFrom (acc + x) rest

/-- `get_turnover_dollars` (lines 139-146): cumulative sum of the absolute
first differences of the padded exposure series.  The series slot at index
`0` holds NaN in pandas (undefined first difference); it is modelled as
`0`, the empty running sum. -/
def get_turnover_dollars (df : List Row) (s : BHState) : List ℚ :=
  let theta := (get_theta df s).2
  if theta = [] then [] else 0 :: cumsumFrom 0 (absDiffs theta)

/-- `get_turnover_unit` (lines 148-155): cumulative sum of the absolute
first differences of the padded holdings series, same NaN convention. -/
def get_turnover_unit (df : List Row) (s : BHState) : List ℚ :=
  let hold := (get_stock_hold df s).2
  if hold = [] then [] else 0 :: cumsumFrom 0 (absDiffs hold)

/-! ### Properties of padding -/

theorem extendTo_length (n : ℕ) (xs : List ℚ) :
    (extendTo n xs).length = xs.length + (n - xs.length) := by
  simp [extendTo]

theorem padTo_length (n : ℕ) (xs : List ℚ) : (padTo n xs).length = n := by
  simp only [padTo, List.length_take, extendTo_length]
  omega

theorem padTo_getD_lt (n : ℕ) (xs : List ℚ) (i : ℕ) (h1 : i < xs.length) (h2 : i < n) :
    (padTo n xs).getD i 0 = xs.getD i 0 := by
  simp [padTo, extendTo, List.getD_eq_getElem?_getD, List.getElem?_take, h1, h2,
    List.getElem?_append]

theorem padTo_getD_ge (n : ℕ) (xs : List ℚ) (i : ℕ) (h : xs.length ≤ i) :
    (padTo n xs).getD i 0 = 0 := by
  rcases lt_or_ge i n with h2 | h2
  · rw [padTo, List.getD_eq_getElem?_getD, List.getElem?_take, if_pos h2, extendTo,
      List.getElem?_append_right h, List.getElem?_replicate]
    split <;> rfl
  · exact List.getD_eq_default _ _ (by rw [padTo_length]; exact h2)

theorem extendTo_extendTo (n : ℕ) (xs : List ℚ) :
    extendTo n (extendTo n xs) = extendTo n xs := by
  simp only [extendTo, List.length_append, List.length_replicate]
  have h : n - (xs.length + (n - xs.length)) = 0 := by omega
  simp [h]

theorem padTo_extendTo (n : ℕ) (xs : List ℚ) :
    padTo n (extendTo n xs) = padTo n xs := by
  unfold padTo
  rw [extendTo_extendTo]

theorem getLastD_eq_getD_length_sub_one (xs : List ℚ) :
    xs.getLastD 0 = xs.getD (xs.length - 1) 0 := by
  rw [List.getLastD_eq_getLast?, List.getLast?_eq_getElem?, List.getD_eq_getElem?_getD]

/-! ### Properties of the cumulative-sum helpers -/

theorem absDiffs_nonneg : ∀ (xs : List ℚ) (x : ℚ), x ∈ absDiffs xs → 0 ≤ x
  | [], x, h => by simp [absDiffs] at h
  | [_], x, h => by simp [absDiffs] at h
  | a :: b :: rest, x, h => by
    rw [absDiffs, List.mem_cons] at h
    rcases h with h | h
    · exact h ▸ abs_nonneg _
    · exact absDiffs_nonneg (b :: rest) x h

theorem cumsumFrom_chain (l : List ℚ) : ∀ (acc : ℚ), (∀ x ∈ l, 0 ≤ x) →
    List.Chain (· ≤ ·) acc (cumsumFrom acc l) := by
  induction l with
  | nil => intro acc _; exact List.Chain.nil
  | cons x rest ih =>
    intro acc h
    rw [cumsumFrom]
    exact List.Chain.cons (le_add_of_nonneg_right (h x (List.mem_cons_self x rest)))
      (ih (acc + x) fun y hy => h y (List.mem_cons_of_mem x hy))

/-! ### Unfolding lemmas for the loop body -/

theorem execFromI_nil (theta_0 V_0 : ℚ) (i : ℕ) (s : BHState) :
    execFromI theta_0 V_0 i [] s = (s, none) := rfl

theorem execFromI_cons_over (theta_0 V_0 : ℚ) (i : ℕ) (row : Row) (rest : List Row)
    (s : BHState)
    (h1 : overExposed theta_0 (s.stock_hold.getD (i - 1) 0 * row.adjClose)) :
    execFromI theta_0 V_0 i (row :: rest) s =
      execFromI theta_0 V_0 (i + 1) rest
        (s.app (|s.stock_hold.getD (i - 1) 0 * row.adjClose| - theta_0)
          (theta_0 * signalAt i)
          (theta_0 * signalAt i / row.adjClose)
          (row.returnPerUnit * (s.stock_hold.getD (i - 1) 0 * row.adjClose))) := by
  simp only [execFromI]
  rw [if_pos h1]

theorem execFromI_cons_buffer (theta_0 V_0 : ℚ) (i : ℕ) (row : Row) (rest : List Row)
    (s : BHState)
    (h1 : ¬ overExposed theta_0 (s.stock_hold.getD (i - 1) 0 * row.adjClose))
    (h2 : bufferBand theta_0 V_0 (s.stock_hold.getD (i - 1) 0 * row.adjClose)) :
    execFromI theta_0 V_0 i (row :: rest) s =
      execFromI theta_0 V_0 (i + 1) rest
        (s.app 0 (s.stock_hold.getD (i - 1) 0 * row.adjClose)
          (s.stock_hold.getLastD 0)
          (row.returnPerUnit * (s.stock_hold.getD (i - 1) 0 * row.adjClose))) := by
  simp only [execFromI]
  rw [if_neg h1, if_pos h2]

theorem execFromI_cons_wipe (theta_0 V_0 : ℚ) (i : ℕ) (row : Row) (rest : List Row)
    (s : BHState)
    (h1 : ¬ overExposed theta_0 (s.stock_hold.getD (i - 1) 0 * row.adjClose))
    (h2 : ¬ bufferBand theta_0 V_0 (s.stock_hold.getD (i - 1) 0 * row.adjClose)) :
    execFromI theta_0 V_0 i (row :: rest) s = (s, some i) := by
  simp only [execFromI]
  rw [if_neg h1, if_neg h2]

theorem app_theta (s : BHState) (c t h p : ℚ) : (s.app c t h p).theta = s.theta ++ [t] := rfl

theorem app_cap_V (s : BHState) (c t h p : ℚ) : (s.app c t h p).cap_V = s.cap_V ++ [c] := rfl

theorem app_PnL (s : BHState) (c t h p : ℚ) : (s.app c t h p).PnL = s.PnL ++ [p] := rfl

theorem app_stock_hold (s : BHState) (c t h p : ℚ) :
    (s.app c t h p).stock_hold = s.stock_hold ++ [h] := rfl

/-- If the loop halted via the wipeout `break` at index `k`, then `k` lies in
the range of processed indices and each sequence gained exactly `k - i`
elements (one per completed iteration `i .. k - 1`). -/
theorem execFromI_halt (theta_0 V_0 : ℚ) :
    ∀ (l : List Row) (i : ℕ) (s : BHState) (k : ℕ),
      (execFromI theta_0 V_0 i l s).2 = some k →
      i ≤ k ∧ k < i + l.length ∧
      (execFromI theta_0 V_0 i l s).1.theta.length = s.theta.length + (k - i) ∧
      (execFromI theta_0 V_0 i l s).1.cap_V.length = s.cap_V.length + (k - i) ∧
      (execFromI theta_0 V_0 i l s).1.PnL.length = s.PnL.length + (k - i) ∧
      (execFromI theta_0 V_0 i l s).1.stock_hold.length = s.stock_hold.length + (k - i)
  | [], i, s, k => by
    intro h
    simp [execFromI_nil] at h
  | row :: rest, i, s, k => by
    intro h
    by_cases h1 : overExposed theta_0 (s.stock_hold.getD (i - 1) 0 * row.adjClose)
    · rw [execFromI_cons_over theta_0 V_0 i row rest s h1] at h ⊢
      obtain ⟨hik, hkb, e1, e2, e3, e4⟩ := execFromI_halt theta_0 V_0 rest (i + 1) _ k h
      rw [e1, e2, e3, e4, app_theta, app_cap_V, app_PnL, app_stock_hold]
      simp only [List.length_append, List.length_cons, List.length_nil]
      refine ⟨by omega, by omega, by omega, by omega, by omega, by omega⟩
    · by_cases h2 : bufferBand theta_0 V_0 (s.stock_hold.getD (i - 1) 0 * row.adjClose)
      · rw [execFromI_cons_buffer theta_0 V_0 i row rest s h1 h2] at h ⊢
        obtain ⟨hik, hkb, e1, e2, e3, e4⟩ := execFromI_halt theta_0 V_0 rest (i + 1) _ k h
        rw [e1, e2, e3, e4, app_theta, app_cap_V, app_PnL, app_stock_hold]
        simp only [List.length_append, List.length_cons, List.length_nil]
        refine ⟨by omega, by omega, by omega, by omega, by omega, by omega⟩
      · rw [execFromI_cons_wipe theta_0 V_0 i row rest s h1 h2] at h ⊢
        simp only [Option.some.injEq] at h
        subst h
        simp only [List.length_cons]
        refine ⟨by omega, by omega, by omega, by omega, by omega, by omega⟩

/-- If the loop ran to completion, each sequence gained exactly one element
per remaining row. -/
theorem execFromI_none (theta_0 V_0 : ℚ) :
    ∀ (l : List Row) (i : ℕ) (s : BHState),
      (execFromI theta_0 V_0 i l s).2 = none →
      (execFromI theta_0 V_0 i l s).1.theta.length = s.theta.length + l.length ∧
      (execFromI theta_0 V_0 i l s).1.cap_V.length = s.cap_V.length + l.length ∧
      (execFromI theta_0 V_0 i l s).1.PnL.length = s.PnL.length + l.length ∧
      (execFromI theta_0 V_0 i l s).1.stock_hold.length = s.stock_hold.length + l.length
  | [], i, s => by
    intro _
    simp [execFromI_nil]
  | row :: rest, i, s => by
    intro h
    by_cases h1 : overExposed theta_0 (s.stock_hold.getD (i - 1) 0 * row.adjClose)
    · rw [execFromI_cons_over theta_0 V_0 i row rest s h1] at h ⊢
      obtain ⟨e1, e2, e3, e4⟩ := execFromI_none theta_0 V_0 rest (i + 1) _ h
      rw [e1, e2, e3, e4, app_theta, app_cap_V, app_PnL, app_stock_hold]
      simp only [List.length_append, List.length_cons, List.length_nil]
      refine ⟨by omega, by omega, by omega, by omega⟩
    · by_cases h2 : bufferBand theta_0 V_0 (s.stock_hold.getD (i - 1) 0 * row.adjClose)
      · rw [execFromI_cons_buffer theta_0 V_0 i row rest s h1 h2] at h ⊢
        obtain ⟨e1, e2, e3, e4⟩ := execFromI_none theta_0 V_0 rest (i + 1) _ h
        rw [e1, e2, e3, e4, app_theta, app_cap_V, app_PnL, app_stock_hold]
        simp only [List.length_append, List.length_cons, List.length_nil]
        refine ⟨by omega, by omega, by omega, by omega⟩
      · rw [execFromI_cons_wipe theta_0 V_0 i row rest s h1 h2] at h
        simp at h

/-- Execution only appends: entries already present are never modified. -/
theorem execFromI_getD (theta_0 V_0 : ℚ) :
    ∀ (l : List Row) (i : ℕ) (s : BHState) (j : ℕ),
      (j < s.theta.length →
        (execFromI theta_0 V_0 i l s).1.theta.getD j 0 = s.theta.getD j 0) ∧
      (j < s.cap_V.length →
        (execFromI theta_0 V_0 i l s).1.cap_V.getD j 0 = s.cap_V.getD j 0) ∧
      (j < s.PnL.length →
        (execFromI theta_0 V_0 i l s).1.PnL.getD j 0 = s.PnL.getD j 0) ∧
      (j < s.stock_hold.length →
        (execFromI theta_0 V_0 i l s).1.stock_hold.getD j 0 = s.stock_hold.getD j 0)
  | [], i, s, j => by
    rw [execFromI_nil]
    exact ⟨fun _ => rfl, fun _ => rfl, fun _ => rfl, fun _ => rfl⟩
  | row :: rest, i, s, j => by
    by_cases h1 : overExposed theta_0 (s.stock_hold.getD (i - 1) 0 * row.adjClose)
    · rw [execFromI_cons_over theta_0 V_0 i row rest s h1]
      obtain ⟨e1, e2, e3, e4⟩ := execFromI_getD theta_0 V_0 rest (i + 1)
        (s.app (|s.stock_hold.getD (i - 1) 0 * row.adjClose| - theta_0)
          (theta_0 * signalAt i) (theta_0 * signalAt i / row.adjClose)
          (row.returnPerUnit * (s.stock_hold.getD (i - 1) 0 * row.adjClose))) j
      refine ⟨fun hj => ?_, fun hj => ?_, fun hj => ?_, fun hj => ?_⟩
      · rw [e1 (by rw [app_theta]; simp only [List.length_append]; omega),
          app_theta, List.getD_append _ _ _ _ hj]
      · rw [e2 (by rw [app_cap_V]; simp only [List.length_append]; omega),
          app_cap_V, List.getD_append _ _ _ _ hj]
      · rw [e3 (by rw [app_PnL]; simp only [List.length_append]; omega),
          app_PnL, List.getD_append _ _ _ _ hj]
      · rw [e4 (by rw [app_stock_hold]; simp only [List.length_append]; omega),
          app_stock_hold, List.getD_append _ _ _ _ hj]
    · by_cases h2 : bufferBand theta_0 V_0 (s.stock_hold.getD (i - 1) 0 * row.adjClose)
      · rw [execFromI_cons_buffer theta_0 V_0 i row rest s h1 h2]
        obtain ⟨e1, e2, e3, e4⟩ := execFromI_getD theta_0 V_0 rest (i + 1)
          (s.app 0 (s.stock_hold.getD (i - 1) 0 * row.adjClose)
            (s.stock_hold.getLastD 0)
            (row.returnPerUnit * (s.stock_hold.getD (i - 1) 0 * row.adjClose))) j
        refine ⟨fun hj => ?_, fun hj => ?_, fun hj => ?_, fun hj => ?_⟩
        · rw [e1 (by rw [app_theta]; simp only [List.length_append]; omega),
            app_theta, List.getD_append _ _ _ _ hj]
        · rw [e2 (by rw [app_cap_V]; simp only [List.length_append]; omega),
            app_cap_V, List.getD_append _ _ _ _ hj]
        · rw [e3 (by rw [app_PnL]; simp only [List.length_append]; omega),
            app_PnL, List.getD_append _ _ _ _ hj]
        · rw [e4 (by rw [app_stock_hold]; simp only [List.length_append]; omega),
            app_stock_hold, List.getD_append _ _ _ _ hj]
      · rw [execFromI_cons_wipe theta_0 V_0 i row rest s h1 h2]
        exact ⟨fun _ => rfl, fun _ => rfl, fun _ => rfl, fun _ => rfl⟩

/-- Splitting the remaining rows: if the first block completes without a
wipeout, execution continues on the second block from where it left off. -/
theorem execFromI_append_none (theta_0 V_0 : ℚ) :
    ∀ (l₁ l₂ : List Row) (i : ℕ) (s : BHState),
      (execFromI theta_0 V_0 i l₁ s).2 = none →
      execFromI theta_0 V_0 i (l₁ ++ l₂) s =
        execFromI theta_0 V_0 (i + l₁.length) l₂ (execFromI theta_0 V_0 i l₁ s).1
  | [], l₂, i, s => by
    intro _
    simp [execFromI_nil]
  | row :: rest, l₂, i, s => by
    intro h
    by_cases h1 : overExposed theta_0 (s.stock_hold.getD (i - 1) 0 * row.adjClose)
    · rw [execFromI_cons_over theta_0 V_0 i row rest s h1] at h
      rw [List.cons_append, execFromI_cons_over theta_0 V_0 i row (rest ++ l₂) s h1,
        execFromI_cons_over theta_0 V_0 i row rest s h1,
        execFromI_append_none theta_0 V_0 rest l₂ (i + 1) _ h]
      congr 1
      simp only [List.length_cons]
      omega
    · by_cases h2 : bufferBand theta_0 V_0 (s.stock_hold.getD (i - 1) 0 * row.adjClose)
      · rw [execFromI_cons_buffer theta_0 V_0 i row rest s h1 h2] at h
        rw [List.cons_append, execFromI_cons_buffer theta_0 V_0 i row (rest ++ l₂) s h1 h2,
          execFromI_cons_buffer theta_0 V_0 i row rest s h1 h2,
          execFromI_append_none theta_0 V_0 rest l₂ (i + 1) _ h]
        congr 1
        simp only [List.length_cons]
        omega
      · rw [execFromI_cons_wipe theta_0 V_0 i row rest s h1 h2] at h
        simp at h

theorem getD_append_len (xs : List ℚ) (x : ℚ) (n : ℕ) (h : xs.length = n) :
    (xs ++ [x]).getD n 0 = x := by
  subst h
  rw [List.getD_append_right _ _ _ _ le_rfl, Nat.sub_self]
  rfl

/-! ### Concrete price series used by witnesses and counterexamples -/

/-- Constant price series: the spec's concrete buffer-band scenario. -/
def dfFlat : List Row := [⟨100, 0, 0⟩, ⟨100, 2, 0⟩, ⟨100, 3, 0⟩]

/-- A price drop to 40 triggers the wipeout regime at period 1 when
`V_0 = 1000`, `L = 2` (trial exposure `800 ≤ theta_0 - V_0 = 1000`). -/
def dfWipe : List Row := [⟨100, 0, 0⟩, ⟨40, 2, 1⟩, ⟨100, 3, 1⟩]

/-- A price rise to 150 triggers the over-exposed regime at period 1 when
`V_0 = 1000`, `L = 1` (trial exposure `1500 > theta_0 = 1000`). -/
def dfOver : List Row := [⟨100, 0, 0⟩, ⟨150, 2, 1⟩, ⟨150, 3, 2⟩]

/-! ### Claim theorems -/

/-- C6: for every valid configuration (`V_0 > 0`, seed price `> 0`),
immediately after construction the seed elements satisfy
`theta[0] = V_0 * L`, `capV[0] = 0`, `pnl[0] = 0` and
`stockHold[0] = theta_0 / price[0]` with `theta_0 = V_0 * L`. -/
theorem seed_values (V_0 L : ℚ) (row : Row) (rest : List Row)
    (hV : 0 < V_0) (hp : 0 < row.adjClose) :
    (init (row :: rest) V_0 L).theta = [V_0 * L] ∧
    (init (row :: rest) V_0 L).cap_V = [0] ∧
    (init (row :: rest) V_0 L).PnL = [0] ∧
    (init (row :: rest) V_0 L).stock_hold = [V_0 * L / row.adjClose] :=
  ⟨rfl, rfl, rfl, rfl⟩

theorem seed_values_witness :
    (init dfFlat 1000 2).theta = [2000] ∧
    (init dfFlat 1000 2).cap_V = [0] ∧
    (init dfFlat 1000 2).PnL = [0] ∧
    (init dfFlat 1000 2).stock_hold = [20] := by
  have h := seed_values 1000 2 ⟨100, 0, 0⟩ [⟨100, 2, 0⟩, ⟨100, 3, 0⟩]
    (by norm_num) (by norm_num)
  norm_num at h
  exact h

/-- C10: each padding accessor is idempotent: calling it again on the
mutated object state extends the sequence by zero elements, returns the
same series, and leaves the state unchanged. -/
theorem accessors_idempotent (df : List Row) (s : BHState) :
    get_theta df (get_theta df s).1 = get_theta df s ∧
    get_stock_hold df (get_stock_hold df s).1 = get_stock_hold df s ∧
    get_cap_V df (get_cap_V df s).1 = get_cap_V df s ∧
    get_PnL df (get_PnL df s).1 = get_PnL df s := by
  refine ⟨?_, ?_, ?_, ?_⟩ <;>
    simp [get_theta, get_stock_hold, get_cap_V, get_PnL, extendTo_extendTo, padTo_extendTo]

/-- C3: with `V_0 > 0`, exactly one of the three regime conditions holds for
any trial exposure; the boundary `|theta_t| = theta_0` falls in the buffer
band, the boundary `|theta_t| = theta_0 - V_0` in the wipeout regime, and
the `else` branch guard (neither of the two tested conditions) is exactly
the wipeout condition, so the branch taken is the branch whose condition
holds. -/
theorem regime_trichotomy (theta_0 V_0 theta_t : ℚ) (hV : 0 < V_0) :
    ((overExposed theta_0 theta_t ∧ ¬ bufferBand theta_0 V_0 theta_t ∧
        ¬ wipeoutCond theta_0 V_0 theta_t) ∨
      (¬ overExposed theta_0 theta_t ∧ bufferBand theta_0 V_0 theta_t ∧
        ¬ wipeoutCond theta_0 V_0 theta_t) ∨
      (¬ overExposed theta_0 theta_t ∧ ¬ bufferBand theta_0 V_0 theta_t ∧
        wipeoutCond theta_0 V_0 theta_t)) ∧
    (|theta_t| = theta_0 → bufferBand theta_0 V_0 theta_t) ∧
    (|theta_t| = theta_0 - V_0 → wipeoutCond theta_0 V_0 theta_t) ∧
    ((¬ overExposed theta_0 theta_t ∧ ¬ bufferBand theta_0 V_0 theta_t) ↔
      wipeoutCond theta_0 V_0 theta_t) := by
  unfold overExposed bufferBand wipeoutCond
  refine ⟨?_, ?_, ?_, ?_⟩
  · by_cases hA : theta_0 < |theta_t|
    · exact Or.inl ⟨hA, fun hb => absurd hA (not_lt.mpr hb.1),
        fun hw => absurd hA (not_lt.mpr (by linarith))⟩
    · push_neg at hA
      by_cases hW : |theta_t| ≤ theta_0 - V_0
      · exact Or.inr (Or.inr ⟨not_lt.mpr hA,
          fun hb => absurd hb.2 (not_lt.mpr hW), hW⟩)
      · push_neg at hW
        exact Or.inr (Or.inl ⟨not_lt.mpr hA, ⟨hA, hW⟩, not_le.mpr hW⟩)
  · intro h
    exact ⟨le_of_eq h, by rw [h]; linarith⟩
  · intro h
    exact le_of_eq h
  · constructor
    · rintro ⟨hA, hB⟩
      push_neg at hA
      by_contra hw
      push_neg at hw
      exact hB ⟨hA, hw⟩
    · intro hw
      exact ⟨not_lt.mpr (by linarith), fun hb => absurd hb.2 (not_lt.mpr hw)⟩

theorem regime_trichotomy_witness :
    bufferBand 2 1 2 ∧ wipeoutCond 2 1 1 :=
  ⟨(regime_trichotomy 2 1 2 (by norm_num)).2.1 (by norm_num),
    (regime_trichotomy 2 1 1 (by norm_num)).2.2.1 (by norm_num)⟩

/-- Auxiliary for C9: the turnover series (NaN slot modelled as the empty
running sum `0`) is a non-decreasing chain, as a running sum of absolute
values. -/
theorem turnover_list_pairwise (xs : List ℚ) :
    List.Pairwise (· ≤ ·)
      (if xs = [] then ([] : List ℚ) else 0 :: cumsumFrom 0 (absDiffs xs)) := by
  split
  · exact List.Pairwise.nil
  · rw [← List.chain_iff_pairwise]
    exact cumsumFrom_chain (absDiffs xs) 0 (absDiffs_nonneg xs)

/-- C9: for every input, the turnover-in-dollars and turnover-in-units
series are non-decreasing across the padded series. -/
theorem turnover_monotone (df : List Row) (V_0 L : ℚ) :
    List.Pairwise (· ≤ ·) (get_turnover_dollars df (run df V_0 L)) ∧
    List.Pairwise (· ≤ ·) (get_turnover_unit df (run df V_0 L)) := by
  unfold get_turnover_dollars get_turnover_unit
  exact ⟨turnover_list_pairwise _, turnover_list_pairwise _⟩

/-- C4 counterexample: the claim says construction with non-positive `V_0`
must be rejected before any simulation step runs, with no simulation state
exposed.  With `V_0 = -1 ≤ 0` the constructor succeeds, exposes the seeded
state, and `run` then executes two full simulation steps. -/
theorem invalid_config_rejected_counterexample :
    (-1 : ℚ) ≤ 0 ∧
    init dfFlat (-1) 1 =
      { theta := [-1], cap_V := [0], PnL := [0], stock_hold := [-(1 : ℚ) / 100] } ∧
    (run dfFlat (-1) 1).theta.length = 3 := by
  refine ⟨by norm_num, ?_, ?_⟩
  · norm_num [init, dfFlat]
  · norm_num [run, runI, execute_strategy, execFromI, init, dfFlat, signalAt,
      overExposed, bufferBand, BHState.app, List.getD, List.getLastD]

/-- C4 amended: construction performs no validation at all: every
configuration, including those with non-positive initial investment,
non-positive leverage or non-positive seed price, is accepted, the seeded
simulation state is exposed, and the run operates on it. -/
theorem invalid_config_accepted (V_0 L : ℚ) (row : Row) (rest : List Row)
    (hinv : V_0 ≤ 0 ∨ L ≤ 0 ∨ row.adjClose ≤ 0) :
    init (row :: rest) V_0 L =
      { theta := [V_0 * L], cap_V := [0], PnL := [0],
        stock_hold := [V_0 * L / row.adjClose] } ∧
    1 ≤ (run (row :: rest) V_0 L).theta.length := by
  refine ⟨rfl, ?_⟩
  unfold run runI execute_strategy
  rcases hcase : (execFromI (V_0 * L) V_0 1 ((row :: rest).drop 1)
      (init (row :: rest) V_0 L)).2 with _ | k
  · obtain ⟨e1, _, _, _⟩ := execFromI_none (V_0 * L) V_0 _ _ _ hcase
    rw [e1]
    simp [init]
  · obtain ⟨_, _, e1, _, _, _⟩ := execFromI_halt (V_0 * L) V_0 _ _ _ _ hcase
    rw [e1]
    simp [init]

theorem invalid_config_accepted_witness :
    init (⟨100, 0, 0⟩ :: [⟨100, 2, 0⟩, ⟨100, 3, 0⟩]) (-1) 1 =
      { theta := [-1 * 1], cap_V := [0], PnL := [0],
        stock_hold := [-1 * 1 / 100] } ∧
    1 ≤ (run (⟨100, 0, 0⟩ :: [⟨100, 2, 0⟩, ⟨100, 3, 0⟩]) (-1) 1).theta.length :=
  invalid_config_accepted (-1) 1 ⟨100, 0, 0⟩ [⟨100, 2, 0⟩, ⟨100, 3, 0⟩]
    (Or.inl (by norm_num))

/-- C2: at any period `i` reached with over-exposed trial exposure
`theta_t = stockHold[i-1] * price[i]` (`|theta_t| > theta_0`), the values
recorded at index `i` of the four sequences are
`capV[i] = |theta_t| - theta_0`, `pnl[i] = return_per_unit[i] * theta_t`
(pre-trim exposure), `theta[i] = theta_0 * signal[i]` and
`stockHold[i] = theta[i] / price[i]`. -/
theorem overexposed_step_values (theta_0 V_0 : ℚ) (i : ℕ) (row : Row)
    (rest : List Row) (s : BHState)
    (hlen : s.theta.length = i ∧ s.cap_V.length = i ∧ s.PnL.length = i ∧
      s.stock_hold.length = i)
    (hover : overExposed theta_0 (s.stock_hold.getD (i - 1) 0 * row.adjClose)) :
    (execFromI theta_0 V_0 i (row :: rest) s).1.cap_V.getD i 0 =
      |s.stock_hold.getD (i - 1) 0 * row.adjClose| - theta_0 ∧
    (execFromI theta_0 V_0 i (row :: rest) s).1.PnL.getD i 0 =
      row.returnPerUnit * (s.stock_hold.getD (i - 1) 0 * row.adjClose) ∧
    (execFromI theta_0 V_0 i (row :: rest) s).1.theta.getD i 0 =
      theta_0 * signalAt i ∧
    (execFromI theta_0 V_0 i (row :: rest) s).1.stock_hold.getD i 0 =
      theta_0 * signalAt i / row.adjClose := by
  obtain ⟨l1, l2, l3, l4⟩ := hlen
  rw [execFromI_cons_over theta_0 V_0 i row rest s hover]
  obtain ⟨e1, e2, e3, e4⟩ := execFromI_getD theta_0 V_0 rest (i + 1)
    (s.app (|s.stock_hold.getD (i - 1) 0 * row.adjClose| - theta_0)
      (theta_0 * signalAt i) (theta_0 * signalAt i / row.adjClose)
      (row.returnPerUnit * (s.stock_hold.getD (i - 1) 0 * row.adjClose))) i
  refine ⟨?_, ?_, ?_, ?_⟩
  · rw [e2 (by rw [app_cap_V]; simp only [List.length_append, List.length_cons,
        List.length_nil]; omega), app_cap_V, getD_append_len _ _ _ l2]
  · rw [e3 (by rw [app_PnL]; simp only [List.length_append, List.length_cons,
        List.length_nil]; omega), app_PnL, getD_append_len _ _ _ l3]
  · rw [e1 (by rw [app_theta]; simp only [List.length_append, List.length_cons,
        List.length_nil]; omega), app_theta, getD_append_len _ _ _ l1]
  · rw [e4 (by rw [app_stock_hold]; simp only [List.length_append, List.length_cons,
        List.length_nil]; omega), app_stock_hold, getD_append_len _ _ _ l4]

theorem overexposed_step_values_witness :
    (execFromI 1000 1000 1 [⟨150, 2, 1⟩] ⟨[1000], [0], [0], [10]⟩).1.cap_V.getD 1 0 = 500 ∧
    (execFromI 1000 1000 1 [⟨150, 2, 1⟩] ⟨[1000], [0], [0], [10]⟩).1.PnL.getD 1 0 = 3000 ∧
    (execFromI 1000 1000 1 [⟨150, 2, 1⟩] ⟨[1000], [0], [0], [10]⟩).1.theta.getD 1 0 = 1000 ∧
    (execFromI 1000 1000 1 [⟨150, 2, 1⟩] ⟨[1000], [0], [0], [10]⟩).1.stock_hold.getD 1 0 = 20 / 3 := by
  have h := overexposed_step_values 1000 1000 1 ⟨150, 2, 1⟩ [] ⟨[1000], [0], [0], [10]⟩
    ⟨rfl, rfl, rfl, rfl⟩
    (by show (1000 : ℚ) < |List.getD [(10 : ℚ)] 0 0 * 150|; norm_num)
  norm_num [signalAt] at h
  convert h using 2 <;> norm_num

/-! ### C8: the capital-bucket compounding recurrence -/

theorem cumCapFrom_succ_eq (df : List Row) (capV : List ℚ) (prev : ℚ) (i s : ℕ) :
    cumCapFrom df capV prev i (s + 1) =
      ((prev + capV.getD i 0) * (1 + (df.getD i default).dailyRate / 100)) ::
        cumCapFrom df capV
          ((prev + capV.getD i 0) * (1 + (df.getD i default).dailyRate / 100))
          (i + 1) s := rfl

theorem cumCapFrom_getD_zero (df : List Row) (capV : List ℚ) (prev : ℚ) (i steps : ℕ)
    (h : 1 ≤ steps) :
    (cumCapFrom df capV prev i steps).getD 0 0 =
      (prev + capV.getD i 0) * (1 + (df.getD i default).dailyRate / 100) := by
  obtain ⟨s, rfl⟩ : ∃ s, steps = s + 1 := ⟨steps - 1, by omega⟩
  rw [cumCapFrom_succ_eq, List.getD_cons_zero]

theorem cumCapFrom_getD_succ (df : List Row) (capV : List ℚ) :
    ∀ (j : ℕ) (prev : ℚ) (i steps : ℕ), j + 2 ≤ steps →
      (cumCapFrom df capV prev i steps).getD (j + 1) 0 =
        ((cumCapFrom df capV prev i steps).getD j 0 + capV.getD (i + j + 1) 0) *
          (1 + (df.getD (i + j + 1) default).dailyRate / 100) := by
  intro j
  induction j with
  | zero =>
    intro prev i steps h
    obtain ⟨s, rfl⟩ : ∃ s, steps = s + 2 := ⟨steps - 2, by omega⟩
    rw [cumCapFrom_succ_eq, List.getD_cons_succ, List.getD_cons_zero,
      cumCapFrom_getD_zero df capV _ (i + 1) (s + 1) (by omega)]
  | succ j ih =>
    intro prev i steps h
    obtain ⟨s, rfl⟩ : ∃ s, steps = s + 1 := ⟨steps - 1, by omega⟩
    simp only [cumCapFrom_succ_eq, List.getD_cons_succ]
    rw [ih _ (i + 1) s (by omega)]
    have hidx : i + 1 + j + 1 = i + (j + 1) + 1 := by omega
    rw [hidx]

/-- C8: the compounded capital-bucket series satisfies `capTotal[0] = 0` and,
for `1 <= i < n`, `capTotal[i] = (capTotal[i-1] + capV_padded[i]) *
(1 + dailyRate[i] / 100)`. -/
theorem cumulative_capV_recurrence (df : List Row) (V_0 L : ℚ) :
    (get_cumulative_cap_V df (run df V_0 L)).getD 0 0 = 0 ∧
    ∀ i, 1 ≤ i → i < df.length →
      (get_cumulative_cap_V df (run df V_0 L)).getD i 0 =
        ((get_cumulative_cap_V df (run df V_0 L)).getD (i - 1) 0 +
          (get_cap_V df (run df V_0 L)).2.getD i 0) *
          (1 + (df.getD i default).dailyRate / 100) := by
  have hlen : (get_cap_V df (run df V_0 L)).2.length = df.length := padTo_length _ _
  constructor
  · rfl
  · intro i h1 h2
    show (0 :: cumCapFrom df (get_cap_V df (run df V_0 L)).2 0 1
        ((get_cap_V df (run df V_0 L)).2.length - 1)).getD i 0 =
      ((0 :: cumCapFrom df (get_cap_V df (run df V_0 L)).2 0 1
        ((get_cap_V df (run df V_0 L)).2.length - 1)).getD (i - 1) 0 +
        (get_cap_V df (run df V_0 L)).2.getD i 0) *
        (1 + (df.getD i default).dailyRate / 100)
    rw [hlen]
    obtain ⟨j, rfl⟩ : ∃ j, i = j + 1 := ⟨i - 1, by omega⟩
    cases j with
    | zero =>
      rw [List.getD_cons_succ,
        cumCapFrom_getD_zero df _ 0 1 (df.length - 1) (by omega)]
      norm_num
    | succ j =>
      rw [List.getD_cons_succ,
        cumCapFrom_getD_succ df _ j 0 1 (df.length - 1) (by omega)]
      have hidx : 1 + j + 1 = j + 1 + 1 := by omega
      rw [hidx]
      norm_num [List.getD_cons_succ]

theorem cumulative_capV_recurrence_witness :
    (get_cumulative_cap_V dfOver (run dfOver 1000 1)).getD 0 0 = 0 ∧
    (get_cumulative_cap_V dfOver (run dfOver 1000 1)).getD 1 0 =
      ((get_cumulative_cap_V dfOver (run dfOver 1000 1)).getD 0 0 +
        (get_cap_V dfOver (run dfOver 1000 1)).2.getD 1 0) *
        (1 + ((dfOver.getD 1 default).dailyRate) / 100) := by
  have h := cumulative_capV_recurrence dfOver 1000 1
  exact ⟨h.1, h.2 1 (by norm_num) (by simp [dfOver])⟩

/-! ### C7: the padding accessors -/

theorem run_lengths_le (df : List Row) (V_0 L : ℚ) (hdf : df ≠ []) :
    (run df V_0 L).theta.length ≤ df.length ∧
    (run df V_0 L).cap_V.length ≤ df.length ∧
    (run df V_0 L).PnL.length ≤ df.length ∧
    (run df V_0 L).stock_hold.length ≤ df.length := by
  have hn : 1 ≤ df.length := by
    cases df with
    | nil => exact absurd rfl hdf
    | cons a l => simp
  unfold run runI execute_strategy
  rcases hcase : (execFromI (V_0 * L) V_0 1 (df.drop 1) (init df V_0 L)).2 with _ | k
  · obtain ⟨e1, e2, e3, e4⟩ := execFromI_none _ _ _ _ _ hcase
    rw [e1, e2, e3, e4]
    refine ⟨?_, ?_, ?_, ?_⟩ <;>
      · simp only [init, List.length_cons, List.length_nil, List.length_drop]
        omega
  · obtain ⟨hik, hkb, e1, e2, e3, e4⟩ := execFromI_halt _ _ _ _ _ _ hcase
    rw [e1, e2, e3, e4]
    simp only [List.length_drop] at hkb
    refine ⟨?_, ?_, ?_, ?_⟩ <;>
      · simp only [init, List.length_cons, List.length_nil]
        omega

/-- C7: each padded accessor returns a series of length equal to the full
period count, equal to the raw sequence on indices the simulation produced
and zero on every index beyond the raw length. -/
theorem padded_accessors_spec (df : List Row) (V_0 L : ℚ) (hdf : df ≠ []) :
    ((get_theta df (run df V_0 L)).2.length = df.length ∧
      (∀ i < (run df V_0 L).theta.length,
        (get_theta df (run df V_0 L)).2.getD i 0 = (run df V_0 L).theta.getD i 0) ∧
      (∀ i, (run df V_0 L).theta.length ≤ i →
        (get_theta df (run df V_0 L)).2.getD i 0 = 0)) ∧
    ((get_stock_hold df (run df V_0 L)).2.length = df.length ∧
      (∀ i < (run df V_0 L).stock_hold.length,
        (get_stock_hold df (run df V_0 L)).2.getD i 0 =
          (run df V_0 L).stock_hold.getD i 0) ∧
      (∀ i, (run df V_0 L).stock_hold.length ≤ i →
        (get_stock_hold df (run df V_0 L)).2.getD i 0 = 0)) ∧
    ((get_cap_V df (run df V_0 L)).2.length = df.length ∧
      (∀ i < (run df V_0 L).cap_V.length,
        (get_cap_V df (run df V_0 L)).2.getD i 0 = (run df V_0 L).cap_V.getD i 0) ∧
      (∀ i, (run df V_0 L).cap_V.length ≤ i →
        (get_cap_V df (run df V_0 L)).2.getD i 0 = 0)) ∧
    ((get_PnL df (run df V_0 L)).2.length = df.length ∧
      (∀ i < (run df V_0 L).PnL.length,
        (get_PnL df (run df V_0 L)).2.getD i 0 = (run df V_0 L).PnL.getD i 0) ∧
      (∀ i, (run df V_0 L).PnL.length ≤ i →
        (get_PnL df (run df V_0 L)).2.getD i 0 = 0)) := by
  obtain ⟨b1, b2, b3, b4⟩ := run_lengths_le df V_0 L hdf
  refine ⟨⟨padTo_length _ _, fun i hi => ?_, fun i hi => ?_⟩,
    ⟨padTo_length _ _, fun i hi => ?_, fun i hi => ?_⟩,
    ⟨padTo_length _ _, fun i hi => ?_, fun i hi => ?_⟩,
    ⟨padTo_length _ _, fun i hi => ?_, fun i hi => ?_⟩⟩
  · exact padTo_getD_lt _ _ _ hi (lt_of_lt_of_le hi b1)
  · exact padTo_getD_ge _ _ _ hi
  · exact padTo_getD_lt _ _ _ hi (lt_of_lt_of_le hi b4)
  · exact padTo_getD_ge _ _ _ hi
  · exact padTo_getD_lt _ _ _ hi (lt_of_lt_of_le hi b2)
  · exact padTo_getD_ge _ _ _ hi
  · exact padTo_getD_lt _ _ _ hi (lt_of_lt_of_le hi b3)
  · exact padTo_getD_ge _ _ _ hi

/-- Concrete evaluation of the wipeout scenario `dfWipe` with `V_0 = 1000`,
`L = 2`: the wipeout regime fires at period 1 and only the seed values
remain in the four sequences. -/
theorem run_dfWipe_eval :
    runI dfWipe 1000 2 =
      ({ theta := [2000], cap_V := [0], PnL := [0], stock_hold := [20] }, some 1) := by
  norm_num [runI, execute_strategy, execFromI, init, dfWipe, signalAt, overExposed,
    bufferBand, BHState.app, List.getD, List.getLastD]

theorem padded_accessors_spec_witness :
    (get_theta dfWipe (run dfWipe 1000 2)).2.length = 3 ∧
    (get_theta dfWipe (run dfWipe 1000 2)).2.getD 0 0 =
      (run dfWipe 1000 2).theta.getD 0 0 ∧
    (get_theta dfWipe (run dfWipe 1000 2)).2.getD 1 0 = 0 := by
  have h := padded_accessors_spec dfWipe 1000 2 (by simp [dfWipe])
  have hlen : (run dfWipe 1000 2).theta.length = 1 := by
    rw [run, run_dfWipe_eval]
    rfl
  refine ⟨?_, ?_, ?_⟩
  · simpa [dfWipe] using h.1.1
  · exact h.1.2.1 0 (by rw [hlen]; norm_num)
  · exact h.1.2.2 1 (by rw [hlen])

/-! ### C5: the synchronisation invariant -/

/-- C5: at every point during a run the four sequences have equal length;
they grow by exactly one element per simulated period while no halt has
occurred; consequently `stock_hold[-1]` read by the buffer-band branch at
the start of iteration `i = m + 1` is `stock_hold[i-1]`; and the state
after `m` iterations is a genuine intermediate point of the full run. -/
theorem sequences_sync_invariant (df : List Row) (V_0 L : ℚ) (m : ℕ) :
    ((runUpTo df V_0 L m).1.theta.length = (runUpTo df V_0 L m).1.cap_V.length ∧
      (runUpTo df V_0 L m).1.theta.length = (runUpTo df V_0 L m).1.PnL.length ∧
      (runUpTo df V_0 L m).1.theta.length =
        (runUpTo df V_0 L m).1.stock_hold.length) ∧
    ((runUpTo df V_0 L m).2 = none → m + 1 ≤ df.length →
      (runUpTo df V_0 L m).1.theta.length = m + 1) ∧
    ((runUpTo df V_0 L m).2 = none → m + 1 ≤ df.length →
      (runUpTo df V_0 L m).1.stock_hold.getLastD 0 =
        (runUpTo df V_0 L m).1.stock_hold.getD m 0) ∧
    ((runUpTo df V_0 L m).2 = none → m + 1 ≤ df.length →
      runI df V_0 L =
        execFromI (V_0 * L) V_0 (1 + m) ((df.drop 1).drop m) (runUpTo df V_0 L m).1) := by
  have htake : ∀ h2 : m + 1 ≤ df.length, ((df.drop 1).take m).length = m := by
    intro h2
    simp only [List.length_take, List.length_drop]
    omega
  refine ⟨?_, ?_, ?_, ?_⟩
  · unfold runUpTo
    rcases hcase : (execFromI (V_0 * L) V_0 1 ((df.drop 1).take m) (init df V_0 L)).2
      with _ | k
    · obtain ⟨e1, e2, e3, e4⟩ := execFromI_none _ _ _ _ _ hcase
      rw [e1, e2, e3, e4]
      simp [init]
    · obtain ⟨_, _, e1, e2, e3, e4⟩ := execFromI_halt _ _ _ _ _ _ hcase
      rw [e1, e2, e3, e4]
      simp [init]
  · intro hnone h2
    unfold runUpTo at hnone ⊢
    obtain ⟨e1, _, _, _⟩ := execFromI_none _ _ _ _ _ hnone
    rw [e1, htake h2]
    simp only [init, List.length_cons, List.length_nil]
    omega
  · intro hnone h2
    unfold runUpTo at hnone ⊢
    obtain ⟨_, _, _, e4⟩ := execFromI_none _ _ _ _ _ hnone
    rw [getLastD_eq_getD_length_sub_one, e4, htake h2]
    have : ([V_0 * L / (df.headD default).adjClose] : List ℚ).length = 1 := rfl
    simp only [init, this]
    have hm : 1 + m - 1 = m := by omega
    rw [hm]
  · intro hnone h2
    unfold runUpTo at hnone ⊢
    unfold runI execute_strategy
    conv_lhs => rw [← List.take_append_drop m (df.drop 1)]
    rw [execFromI_append_none _ _ _ _ _ _ hnone, htake h2]

theorem sequences_sync_invariant_witness :
    (runUpTo dfFlat 1000 1 1).1.theta.length = 2 ∧
    (runUpTo dfFlat 1000 1 1).1.stock_hold.getLastD 0 =
      (runUpTo dfFlat 1000 1 1).1.stock_hold.getD 1 0 := by
  have h := sequences_sync_invariant dfFlat 1000 1 1
  have hnone : (runUpTo dfFlat 1000 1 1).2 = none := by
    norm_num [runUpTo, execFromI, init, dfFlat, signalAt, overExposed, bufferBand,
      BHState.app, List.getD, List.getLastD]
  exact ⟨h.2.1 hnone (by simp [dfFlat]), h.2.2.1 hnone (by simp [dfFlat])⟩

/-! ### C1: early termination via the wipeout regime -/

/-- C1 (amended): if the wipeout regime first fires at period `k`, the run
halts immediately; the wipeout period's computed values are discarded by
the `break` before the appends, so each raw sequence has exactly `k`
elements (indices `0 .. k-1`); after padding each series has length equal
to the full period count with zeros from index `k` onward. -/
theorem wipeout_halt_lengths (df : List Row) (V_0 L : ℚ) (k : ℕ)
    (h : (runI df V_0 L).2 = some k) :
    1 ≤ k ∧ k < df.length ∧
    (run df V_0 L).theta.length = k ∧
    (run df V_0 L).cap_V.length = k ∧
    (run df V_0 L).PnL.length = k ∧
    (run df V_0 L).stock_hold.length = k ∧
    (get_theta df (run df V_0 L)).2.length = df.length ∧
    (get_cap_V df (run df V_0 L)).2.length = df.length ∧
    (get_PnL df (run df V_0 L)).2.length = df.length ∧
    (get_stock_hold df (run df V_0 L)).2.length = df.length ∧
    (∀ j, k ≤ j → (get_theta df (run df V_0 L)).2.getD j 0 = 0) ∧
    (∀ j, k ≤ j → (get_cap_V df (run df V_0 L)).2.getD j 0 = 0) ∧
    (∀ j, k ≤ j → (get_PnL df (run df V_0 L)).2.getD j 0 = 0) ∧
    (∀ j, k ≤ j → (get_stock_hold df (run df V_0 L)).2.getD j 0 = 0) := by
  unfold runI execute_strategy at h
  obtain ⟨hik, hkb, e1, e2, e3, e4⟩ := execFromI_halt _ _ _ _ _ _ h
  simp only [List.length_drop] at hkb
  have ht : (run df V_0 L).theta.length = k := by
    unfold run runI execute_strategy
    rw [e1]
    simp only [init, List.length_cons, List.length_nil]
    omega
  have hc : (run df V_0 L).cap_V.length = k := by
    unfold run runI execute_strategy
    rw [e2]
    simp only [init, List.length_cons, List.length_nil]
    omega
  have hp : (run df V_0 L).PnL.length = k := by
    unfold run runI execute_strategy
    rw [e3]
    simp only [init, List.length_cons, List.length_nil]
    omega
  have hs : (run df V_0 L).stock_hold.length = k := by
    unfold run runI execute_strategy
    rw [e4]
    simp only [init, List.length_cons, List.length_nil]
    omega
  refine ⟨hik, by omega, ht, hc, hp, hs, padTo_length _ _, padTo_length _ _,
    padTo_length _ _, padTo_length _ _, fun j hj => ?_, fun j hj => ?_,
    fun j hj => ?_, fun j hj => ?_⟩
  · exact padTo_getD_ge _ _ _ (by rw [ht]; exact hj)
  · exact padTo_getD_ge _ _ _ (by rw [hc]; exact hj)
  · exact padTo_getD_ge _ _ _ (by rw [hp]; exact hj)
  · exact padTo_getD_ge _ _ _ (by rw [hs]; exact hj)

/-- C1 counterexample: on `dfWipe` with `V_0 = 1000`, `L = 2` the wipeout
regime first fires at period `k = 1`, yet the four raw sequences have
exactly `1` element each (the seeds) rather than `k + 1 = 2`: the wipeout
period's values (`capV = -1200`, `theta = 0`, `stockHold = 0`, `pnl = 0`)
are never appended. -/
theorem wipeout_appends_counterexample :
    (runI dfWipe 1000 2).2 = some 1 ∧
    (run dfWipe 1000 2).theta = [2000] ∧
    (run dfWipe 1000 2).cap_V = [0] ∧
    (run dfWipe 1000 2).PnL = [0] ∧
    (run dfWipe 1000 2).stock_hold = [20] ∧
    ¬ (run dfWipe 1000 2).cap_V.length = 1 + 1 := by
  rw [run, run_dfWipe_eval]
  norm_num

theorem wipeout_halt_lengths_witness :
    (run dfWipe 1000 2).theta.length = 1 ∧
    (get_theta dfWipe (run dfWipe 1000 2)).2.length = 3 ∧
    (get_cap_V dfWipe (run dfWipe 1000 2)).2.getD 2 0 = 0 := by
  have h := wipeout_halt_lengths dfWipe 1000 2 1 (by rw [run_dfWipe_eval])
  obtain ⟨a1, a2, a3, a4, a5, a6, a7, a8, a9, a10, a11, a12, a13, a14⟩ := h
  exact ⟨a3, by simpa [dfWipe] using a7, a12 2 (by norm_num)⟩

end BuyAndHold
